import Mathlib

/-!
Shallow embedding of the `arb` localization library (crates/lib/src/arb.rs and
crates/lib/src/intl.rs) and proofs about the claims of its specification.

Strings are modelled as `List Char`; `serde_json::Value` as `JValue`;
`IndexMap<String, Value>` as an ordered association list (`ArbFile`);
`HashSet<String>` as `Finset (List Char)`.
-/

/-- Rust `String` / `&str` modelled as a list of characters. -/
abbrev Str := List Char

/-- Model of `serde_json::Value`: null, booleans, numbers, strings, arrays
and (order-preserving) objects. -/
inductive JValue where
  | null : JValue
  | bool (b : Bool) : JValue
  | num (n : Int) : JValue
  | str (s : Str) : JValue
  | arr (xs : List JValue) : JValue
  | obj (ms : List (Str × JValue)) : JValue

mutual

/-- Decidable equality of JSON values (written out because automatic
derivation does not handle the nested inductive). -/
def JValue.decEq : (a b : JValue) → Decidable (a = b)
  | .null, .null => isTrue rfl
  | .bool a, .bool b =>
    if h : a = b then isTrue (by rw [h]) else isFalse (fun hh => h (JValue.bool.inj hh))
  | .num a, .num b =>
    if h : a = b then isTrue (by rw [h]) else isFalse (fun hh => h (JValue.num.inj hh))
  | .str a, .str b =>
    if h : a = b then isTrue (by rw [h]) else isFalse (fun hh => h (JValue.str.inj hh))
  | .arr a, .arr b =>
    match JValue.decEqList a b with
    | isTrue h => isTrue (by rw [h])
    | isFalse h => isFalse (fun hh => h (JValue.arr.inj hh))
  | .obj a, .obj b =>
    match JValue.decEqObj a b with
    | isTrue h => isTrue (by rw [h])
    | isFalse h => isFalse (fun hh => h (JValue.obj.inj hh))
  | .null, .bool _ => isFalse (fun h => nomatch h)
  | .null, .num _ => isFalse (fun h => nomatch h)
  | .null, .str _ => isFalse (fun h => nomatch h)
  | .null, .arr _ => isFalse (fun h => nomatch h)
  | .null, .obj _ => isFalse (fun h => nomatch h)
  | .bool _, .null => isFalse (fun h => nomatch h)
  | .bool _, .num _ => isFalse (fun h => nomatch h)
  | .bool _, .str _ => isFalse (fun h => nomatch h)
  | .bool _, .arr _ => isFalse (fun h => nomatch h)
  | .bool _, .obj _ => isFalse (fun h => nomatch h)
  | .num _, .null => isFalse (fun h => nomatch h)
  | .num _, .bool _ => isFalse (fun h => nomatch h)
  | .num _, .str _ => isFalse (fun h => nomatch h)
  | .num _, .arr _ => isFalse (fun h => nomatch h)
  | .num _, .obj _ => isFalse (fun h => nomatch h)
  | .str _, .null => isFalse (fun h => nomatch h)
  | .str _, .bool _ => isFalse (fun h => nomatch h)
  | .str _, .num _ => isFalse (fun h => nomatch h)
  | .str _, .arr _ => isFalse (fun h => nomatch h)
  | .str _, .obj _ => isFalse (fun h => nomatch h)
  | .arr _, .null => isFalse (fun h => nomatch h)
  | .arr _, .bool _ => isFalse (fun h => nomatch h)
  | .arr _, .num _ => isFalse (fun h => nomatch h)
  | .arr _, .str _ => isFalse (fun h => nomatch h)
  | .arr _, .obj _ => isFalse (fun h => nomatch h)
  | .obj _, .null => isFalse (fun h => nomatch h)
  | .obj _, .bool _ => isFalse (fun h => nomatch h)
  | .obj _, .num _ => isFalse (fun h => nomatch h)
  | .obj _, .str _ => isFalse (fun h => nomatch h)
  | .obj _, .arr _ => isFalse (fun h => nomatch h)

/-- Decidable equality of JSON value lists. -/
def JValue.decEqList : (a b : List JValue) → Decidable (a = b)
  | [], [] => isTrue rfl
  | [], _ :: _ => isFalse (fun h => nomatch h)
  | _ :: _, [] => isFalse (fun h => nomatch h)
  | x :: xs, y :: ys =>
    match JValue.decEq x y, JValue.decEqList xs ys with
    | isTrue h1, isTrue h2 => isTrue (by rw [h1, h2])
    | isFalse h1, _ => isFalse (fun h => h1 (List.cons.inj h).1)
    | _, isFalse h2 => isFalse (fun h => h2 (List.cons.inj h).2)

/-- Decidable equality of JSON object member lists. -/
def JValue.decEqObj : (a b : List (Str × JValue)) → Decidable (a = b)
  | [], [] => isTrue rfl
  | [], _ :: _ => isFalse (fun h => nomatch h)
  | _ :: _, [] => isFalse (fun h => nomatch h)
  | (k, v) :: xs, (k2, v2) :: ys =>
    match inferInstanceAs (Decidable (k = k2)), JValue.decEq v v2, JValue.decEqObj xs ys with
    | isTrue h0, isTrue h1, isTrue h2 => isTrue (by rw [h0, h1, h2])
    | isFalse h0, _, _ =>
      isFalse (fun h => h0 (congrArg Prod.fst (List.cons.inj h).1))
    | _, isFalse h1, _ =>
      isFalse (fun h => h1 (congrArg Prod.snd (List.cons.inj h).1))
    | _, _, isFalse h2 => isFalse (fun h => h2 (List.cons.inj h).2)

end

instance : DecidableEq JValue := JValue.decEq

instance : Inhabited JValue := ⟨JValue.null⟩

/-- Model of `ArbFile` (arb.rs line 25): an `IndexMap<String, Value>` as an
ordered list of key/value pairs.  Keys are unique in every map produced by
the library (JSON object parsing and the insert operations preserve this);
the raw-list model states uniqueness as a `Nodup` hypothesis where needed. -/
structure ArbFile where
  contents : List (Str × JValue)
deriving DecidableEq

namespace ArbFile

/-- Model of `ArbFile::len` (arb.rs line 32). -/
def len (f : ArbFile) : Nat := f.contents.length

/-- Keys of the file in order (`self.contents.keys()`). -/
def keysOf (f : ArbFile) : List Str := f.contents.map (fun e => e.1)

/-- Model of `ArbFile::lookup` / `IndexMap::get` (arb.rs line 50): value of the first
entry with the given key. -/
def lookupV (f : ArbFile) (key : Str) : Option JValue :=
  (f.contents.find? (fun e => e.1 = key)).map (fun e => e.2)

/-- Model of `IndexMap::get_index_of` (intl.rs line 442): 0-based position of a key. -/
def indexOf (f : ArbFile) (key : Str) : Option Nat :=
  f.contents.findIdx? (fun e => e.1 = key)

end ArbFile

/-- Model of `IndexMap::insert`: if the key is present its value is replaced in place
(the entry keeps its position), otherwise the pair is appended at the end. -/
def imInsert (key : Str) (v : JValue) : List (Str × JValue) → List (Str × JValue)
  | [] => [(key, v)]
  | e :: rest => if e.1 = key then (key, v) :: rest else e :: imInsert key v rest

namespace ArbFile

/-- Model of `ArbFile::insert_entry` (arb.rs line 68). -/
def insertEntry (f : ArbFile) (key : Str) (v : JValue) : ArbFile :=
  ⟨imInsert key v f.contents⟩

/-- Model of `ArbFile::insert_translation` (arb.rs line 57): insert a string value. -/
def insertTranslation (f : ArbFile) (key : Str) (text : Str) : ArbFile :=
  ⟨imInsert key (.str text) f.contents⟩

/-- Model of `ArbFile::shift_insert_translation` / `IndexMap::shift_insert`
(arb.rs line 62): place the entry at the given index, shifting later
entries.  An existing entry with the same key is removed first (in the
library the key is always absent when this is called). -/
def shiftInsertTranslation (f : ArbFile) (index : Nat) (key : Str) (text : Str) : ArbFile :=
  let m := f.contents.filter (fun e => ¬ e.1 = key)
  ⟨m.take index ++ (key, JValue.str text) :: m.drop index⟩

/-- Model of `ArbFile::remove` / `IndexMap::shift_remove` (arb.rs line 74): remove the
entry with the given key, preserving the order of the remaining entries. -/
def removeKey (f : ArbFile) (key : Str) : ArbFile :=
  ⟨f.contents.filter (fun e => ¬ e.1 = key)⟩

/-- Removing every key of a set.  `shift_remove` preserves the relative order
of the surviving entries, so removing the keys of a `HashSet` one at a time
(in any iteration order, intl.rs line 466) equals this filter. -/
def removeKeys (f : ArbFile) (ks : Finset Str) : ArbFile :=
  ⟨f.contents.filter (fun e => ¬ e.1 ∈ ks)⟩

end ArbFile

/-- Model of `ArbKey::is_prefixed` (arb.rs line 177): `starts_with('@')`. -/
def isPrefixed (key : Str) : Bool :=
  match key with
  | c :: _ => c = '@'
  | [] => false

/-- Model of `ArbEntry::is_translatable` (arb.rs line 158): key not `@`-prefixed and
value a string. -/
def isTranslatableEntry (e : Str × JValue) : Bool :=
  !isPrefixed e.1 && (match e.2 with | .str _ => true | _ => false)

/-- Rust `str::contains` for a literal pattern: the pattern occurs as a
contiguous substring. -/
def containsSub (s pat : Str) : Bool :=
  match s with
  | [] => pat.isEmpty
  | _ :: rest => pat.isPrefixOf s || containsSub rest pat

/-- Rust `str::replacen(pat, repl, 1)`: replace the leftmost occurrence of
`pat` (if any) with `repl`. -/
def replacen1 (pat repl : Str) : Str → Str
  | [] => if pat.isEmpty then repl else []
  | c :: rest =>
    if pat.isPrefixOf (c :: rest) then repl ++ (c :: rest).drop pat.length
    else c :: replacen1 pat repl rest

/-- Model of `format!("{{{}}}", name)` (arb.rs line 260, intl.rs lines 431, 507). -/
def phNeedle (name : Str) : Str := '{' :: name ++ ['}']

/-- Model of `format!("<ph>{}</ph>", name)` (intl.rs lines 432, 506). -/
def phTag (name : Str) : Str := "<ph>".toList ++ name ++ "</ph>".toList

/-- Errors of the library (error.rs) that the embedded code can produce.
Backend (DeepL) errors are opaque; they are carried as a numeric code. -/
inductive Err where
  | translationLength (expected got : Nat) : Err
  | alreadyPrefixed (key : Str) : Err
  | placeholderNotDefined (name text : Str) : Err
  | deepl (code : Nat) : Err
deriving DecidableEq

/-- Decidable equality for `Except` results (used to evaluate the embedded
fallible operations on concrete inputs). -/
instance {ε α : Type} [DecidableEq ε] [DecidableEq α] : DecidableEq (Except ε α)
  | .ok a, .ok b =>
    if h : a = b then isTrue (by rw [h]) else isFalse (fun hh => h (Except.ok.inj hh))
  | .error a, .error b =>
    if h : a = b then isTrue (by rw [h]) else isFalse (fun hh => h (Except.error.inj hh))
  | .ok _, .error _ => isFalse (fun h => nomatch h)
  | .error _, .ok _ => isFalse (fun h => nomatch h)

/-- Model of `Placeholders::verify` (arb.rs line 258): check, in declaration order,
that every declared name occurs literally as `{name}` in the source. -/
def Placeholders.verify (names : List Str) (source : Str) : Except Err Unit :=
  match names with
  | [] => .ok ()
  | n :: rest =>
    if containsSub source (phNeedle n) then Placeholders.verify rest source
    else .error (.placeholderNotDefined n source)

/-- Key of the placeholders object (`PLACEHOLDERS`, arb.rs line 7). -/
def placeholdersKey : Str := "placeholders".toList

/-- Lookup in a JSON object model (`serde_json::Map::get`). -/
def jLookup (ms : List (Str × JValue)) (key : Str) : Option JValue :=
  (ms.find? (fun e => e.1 = key)).map (fun e => e.2)

namespace ArbFile

/-- Model of `ArbFile::placeholders` (arb.rs line 79): error when the key is already
`@`-prefixed; otherwise the member names of the `placeholders` object of the
`@`-prefixed metadata entry, or `none` when absent or not of that shape. -/
def placeholders (f : ArbFile) (key : Str) : Except Err (Option (List Str)) :=
  if isPrefixed key then .error (.alreadyPrefixed key)
  else
    match f.lookupV ('@' :: key) with
    | some (.obj m) =>
      match jLookup m placeholdersKey with
      | some (.obj p) => .ok (some (p.map (fun e => e.1)))
      | _ => .ok none
    | _ => .ok none

end ArbFile

/-- Model of `FileDiff` (arb.rs line 11): three `HashSet<String>`s of key names. -/
structure FileDiff where
  create : Finset Str
  delete : Finset Str
  update : Finset Str

namespace ArbFile

/-- Key set of a file as a finite set (`contents.keys().collect::<HashSet<_>>()`). -/
def keyset (f : ArbFile) : Finset Str := f.keysOf.toFinset

/-- Model of `ArbFile::diff` (arb.rs line 102).  `create` and `delete` are the two set
differences of the key sets; `update` collects the keys of cache entries
whose value in the cache differs from the value in `self` (line 113's loop,
inserting into a `HashSet`, written here as a filter over the cache list). -/
def diff (self other : ArbFile) (cache : Option ArbFile) : FileDiff :=
  let lhs := self.keyset
  let rhs := other.keyset
  let update : Finset Str :=
    match cache with
    | some c =>
      ((c.contents.filter (fun e =>
        match self.lookupV e.1, c.lookupV e.1 with
        | some current, some cached => decide (current ≠ cached)
        | _, _ => false)).map (fun e => e.1)).toFinset
    | none => ∅
  { create := lhs \ rhs, delete := rhs \ lhs, update := update }

end ArbFile

/-- Model of `ArbFile::entries` (arb.rs line 42): the entries in order. -/
def ArbFile.entries (f : ArbFile) : List (Str × JValue) := f.contents

/-- Model of `ArbCache` (intl.rs line 24): one cached bundle per language
(`BTreeMap<Lang, ArbFile>` as an association list keyed by language code). -/
structure ArbCache where
  files : List (Str × ArbFile)
deriving DecidableEq

namespace ArbCache

/-- Model of `ArbCache::get_file` (intl.rs line 28). -/
def getFile (c : ArbCache) (lang : Str) : Option ArbFile :=
  (c.files.find? (fun e => e.1 = lang)).map (fun e => e.2)

/-- Model of `ArbCache::add_entry` (intl.rs line 33): insert into the language's
bundle, creating an empty bundle first when the language is absent. -/
def addEntry (c : ArbCache) (lang : Str) (key : Str) (v : JValue) : ArbCache :=
  if (c.files.find? (fun e => e.1 = lang)).isSome then
    ⟨c.files.map (fun e => if e.1 = lang then (e.1, e.2.insertEntry key v) else e)⟩
  else
    ⟨c.files ++ [(lang, ⟨[(key, v)]⟩)]⟩

/-- Model of `ArbCache::remove_entry` (intl.rs line 39). -/
def removeEntry (c : ArbCache) (lang : Str) (key : Str) : ArbCache :=
  ⟨c.files.map (fun e => if e.1 = lang then (e.1, e.2.removeKey key) else e)⟩

/-- Effect on the cache of the delete loop (intl.rs line 466): removing every
key of the set from the target language's bundle.  `remove_entry` calls for
distinct keys commute, so the `HashSet` iteration order does not matter. -/
def removeKeysFor (c : ArbCache) (lang : Str) (ks : Finset Str) : ArbCache :=
  ⟨c.files.map (fun e => if e.1 = lang then (e.1, e.2.removeKeys ks) else e)⟩

end ArbCache

/-- Model of `Invalidation` (intl.rs line 49). -/
inductive Invalidation where
  | all : Invalidation
  | keys (ks : List Str) : Invalidation

/-- Model of `TranslationOptions` (intl.rs line 57).  `overrides` is the
`HashMap<Lang, ArbFile>` as an association list. -/
structure TranslationOptions where
  targetLang : Str
  dryRun : Bool
  invalidation : Option Invalidation
  overrides : Option (List (Str × ArbFile))
  disableCache : Bool

/-- Model of `TranslationOptions::new` (intl.rs line 76). -/
def TranslationOptions.new (lang : Str) : TranslationOptions :=
  ⟨lang, false, none, none, false⟩

/-- Model of `TranslateResult` (intl.rs line 89). -/
structure TranslateResult where
  template : ArbFile
  translated : ArbFile
  length : Nat
deriving DecidableEq

/-- Model of `CachedEntry` (intl.rs line 99): staged output entries — pass-through, or
queued for translation with placeholder names and optional insert index. -/
inductive CachedEntry where
  | entry (key : Str) (value : JValue) : CachedEntry
  | translate (key : Str) (value : JValue)
      (names : Option (List Str)) (index : Option Nat) : CachedEntry
deriving DecidableEq

/-- Key of a staged entry. -/
def CachedEntry.keyOf : CachedEntry → Str
  | .entry k _ => k
  | .translate k _ _ _ => k

/-- Placeholder protection (intl.rs lines 427-439): replace, for each name in
order, the first occurrence of `{name}` with `<ph>name</ph>`. -/
def protectTags (names : List Str) (s : Str) : Str :=
  names.foldl (fun t n => replacen1 (phNeedle n) (phTag n) t) s

/-- Placeholder restoration (intl.rs lines 502-513): replace, for each name in
order, the first occurrence of `<ph>name</ph>` back with `{name}`. -/
def restoreTags (names : Option (List Str)) (t : Str) : Str :=
  match names with
  | some ns => ns.foldl (fun s n => replacen1 (phTag n) (phNeedle n) s) t
  | none => t

/-- The `invalidated` flag of one loop iteration (intl.rs line 380). -/
def invalidatedFor (inv : Option Invalidation) (key : Str) : Bool :=
  match inv with
  | some .all => true
  | some (.keys ks) => ks.any (fun x => x = key)
  | none => false

/-- Accumulator of the staging loop (intl.rs lines 369-370 and the mutable
`self.cache`): staged entries, queued texts, and the in-memory cache. -/
structure StageAcc where
  cached : List CachedEntry
  translatable : List Str
  cache : ArbCache
deriving DecidableEq

/-- One iteration of the staging loop of `Intl::translate`
(intl.rs lines 379-463). -/
def stageEntry (template : ArbFile) (d : FileDiff) (ov : Option ArbFile)
    (opts : TranslationOptions) (acc : StageAcc) (e : Str × JValue) :
    Except Err StageAcc :=
  let k := e.1
  let invalidated := invalidatedFor opts.invalidation k
  if ¬invalidated ∧ (k ∈ d.delete ∨ (k ∉ d.create ∧ k ∉ d.update)) then
    .ok acc
  else if (match ov with | some o => (o.lookupV k).isSome | none => false) then
    .ok acc
  else
    match e.2 with
    | .str s =>
      if isPrefixed k then .ok { acc with cached := acc.cached ++ [.entry k e.2] }
      else
        match template.placeholders k with
        | .error err => .error err
        | .ok phOpt =>
          match (match phOpt with
                 | some ps => (Placeholders.verify ps s).map (fun _ => some ps)
                 | none => Except.ok none) with
          | .error err => .error err
          | .ok names =>
            let text := match names with
              | some ns => protectTags ns s
              | none => s
            let keyIndex := if k ∈ d.create then template.indexOf k else none
            if opts.dryRun = false then
              let cache' := if opts.disableCache = false
                then acc.cache.addEntry opts.targetLang k e.2 else acc.cache
              .ok { cached := acc.cached ++ [.translate k e.2 names keyIndex],
                    translatable := acc.translatable ++ [text],
                    cache := cache' }
            else
              .ok { acc with cached := acc.cached ++ [.entry k e.2] }
    | _ => .ok { acc with cached := acc.cached ++ [.entry k e.2] }

/-- The staging loop over the template entries.  An error aborts the loop and
reports the accumulator state at the abort point (the failing iteration has
not mutated anything when `placeholders` or `verify` fails). -/
def stageList (template : ArbFile) (d : FileDiff) (ov : Option ArbFile)
    (opts : TranslationOptions) :
    List (Str × JValue) → StageAcc → StageAcc × Option Err
  | [], acc => (acc, none)
  | e :: rest, acc =>
    match stageEntry template d ov opts acc e with
    | .error err => (acc, some err)
    | .ok acc' => stageList template d ov opts rest acc'

/-- The override bundle effective for the run (intl.rs lines 373-377). -/
def effOverrides (opts : TranslationOptions) : Option ArbFile :=
  match opts.overrides with
  | some m => (m.find? (fun e => e.1 = opts.targetLang)).map (fun e => e.2)
  | none => none

/-- Insertion of one translated value (intl.rs lines 515-523): at the recorded
index when it is below the current length, otherwise a plain insert. -/
def insertTranslated (out : ArbFile) (key : Str) (translation : Str)
    (index : Option Nat) : ArbFile :=
  match index with
  | some i =>
    if i < out.len then out.shiftInsertTranslation i key translation
    else out.insertTranslation key translation
  | none => out.insertTranslation key translation

/-- The apply loop (intl.rs lines 490-526): pass-through entries are inserted
as they are; queued entries consume the next returned translation, restore
the placeholder tags and insert the result.  The empty-translations case of a
queued entry cannot be reached (the caller checks the count first). -/
def applyCached : List CachedEntry → List Str → ArbFile → ArbFile
  | [], _, out => out
  | .entry k v :: rest, rs, out => applyCached rest rs (out.insertEntry k v)
  | .translate k _ names index :: rest, rs, out =>
    match rs with
    | [] => applyCached rest [] out
    | t :: rs' => applyCached rest rs' (insertTranslated out k (restoreTags names t) index)

/-- The override pass (intl.rs lines 529-534): every override entry is
inserted into the output, overwriting in place. -/
def applyOverrides (out : ArbFile) : Option ArbFile → ArbFile
  | some ov => ⟨ov.contents.foldl (fun acc e => imInsert e.1 e.2 acc) out.contents⟩
  | none => out

/-- Observable outcome of one `Intl::translate` run: the returned value, the
final in-memory cache, whether the cache file was written (intl.rs line 538),
and the batch of texts sent to the backend (`none` when no request was
issued). -/
structure Outcome where
  result : Except Err TranslateResult
  cache : ArbCache
  cacheWritten : Bool
  request : Option (List Str)
deriving DecidableEq

/-- The diff computed by `Intl::translate` (intl.rs line 371). -/
def diffOf (template target : ArbFile) (cache0 : ArbCache)
    (opts : TranslationOptions) : FileDiff :=
  template.diff target (cache0.getFile opts.targetLang)

/-- The complete staging loop of one run (intl.rs lines 379-463), starting
from empty staged/queued lists and the run's initial in-memory cache. -/
def stageOf (template target : ArbFile) (cache0 : ArbCache)
    (opts : TranslationOptions) : StageAcc × Option Err :=
  stageList template (diffOf template target cache0 opts) (effOverrides opts)
    opts template.entries ⟨[], [], cache0⟩

/-- Model of `Intl::translate` (intl.rs lines 360-546).  The template and target
bundles are the files loaded at lines 367-368; `cache0` is `self.cache`;
`api` is the backend (its opaque transport errors are numeric codes, wrapped
into `Err.deepl` as the `?` on `translate_text` does). -/
def Intl.translate (api : List Str → Except Nat (List Str))
    (template target : ArbFile) (cache0 : ArbCache)
    (opts : TranslationOptions) : Outcome :=
  match stageOf template target cache0 opts with
  | (acc, some err) =>
    { result := .error err, cache := acc.cache, cacheWritten := false, request := none }
  | (acc, none) =>
    let output := target.removeKeys (diffOf template target cache0 opts).delete
    let cache1 := acc.cache.removeKeysFor opts.targetLang
      (diffOf template target cache0 opts).delete
    let length := acc.translatable.length
    if acc.translatable.isEmpty then
      { result := .ok ⟨template, applyOverrides output (effOverrides opts), length⟩,
        cache := cache1, cacheWritten := !opts.disableCache, request := none }
    else
      match api acc.translatable with
      | .error code =>
        { result := .error (.deepl code), cache := cache1, cacheWritten := false,
          request := some acc.translatable }
      | .ok translations =>
        if translations.length ≠ length then
          { result := .error (.translationLength length translations.length),
            cache := cache1, cacheWritten := false, request := some acc.translatable }
        else
          { result := .ok ⟨template,
              applyOverrides (applyCached acc.cached translations output)
                (effOverrides opts), length⟩,
            cache := cache1, cacheWritten := !opts.disableCache,
            request := some acc.translatable }


/-! ### Concrete fixtures used to evaluate the development on sample runs -/

/-- A template with one translatable entry. -/
def exTemplate : ArbFile := ⟨[("helloWorld".toList, .str "Hello world".toList)]⟩

/-- Options for a dry run to French with caching enabled. -/
def exDryRunOptions : TranslationOptions := ⟨"fr".toList, true, none, none, false⟩

/-- Options for a plain run to French with caching enabled. -/
def exPlainOptions : TranslationOptions := ⟨"fr".toList, false, none, none, false⟩

/-- A template with two translatable entries, `a` before `b`. -/
def exTemplateAB : ArbFile :=
  ⟨[("a".toList, .str "A".toList), ("b".toList, .str "B".toList)]⟩

/-- A French override bundle fixing the value of key `a`. -/
def exOverridesA : ArbFile := ⟨[("a".toList, .str "X".toList)]⟩

/-- Options for a run to French with the override bundle for `a` and cache
mutation disabled. -/
def exOverrideOptions : TranslationOptions :=
  ⟨"fr".toList, false, none, some [("fr".toList, exOverridesA)], true⟩

/-- A target bundle holding one key that the (empty) template lacks. -/
def exTargetObsolete : ArbFile := ⟨[("obsolete".toList, .str "old".toList)]⟩

/-- A template whose entry declares a placeholder that its text lacks. -/
def exBadTemplate : ArbFile :=
  ⟨[("k".toList, .str "Hello".toList),
    ("@k".toList, .obj [("placeholders".toList, .obj [("name".toList, .obj [])])])]⟩

/-- A template declaring a placeholder used correctly. -/
def exMetaTemplate : ArbFile :=
  ⟨[("k".toList, .str "Hello {name}".toList),
    ("@k".toList, .obj [("placeholders".toList, .obj [("name".toList, .obj [])])])]⟩

/-- An identity backend: echoes the request list. -/
def echoApi : List Str → Except Nat (List Str) := fun ts => .ok ts

/-- A broken backend returning no translations at all. -/
def emptyApi : List Str → Except Nat (List Str) := fun _ => .ok []

/-! ### Helper lemmas about the embedded primitives -/

/-- Lemma: `containsSub` decides substring containment. -/
theorem containsSub_iff_infix (s pat : Str) : containsSub s pat = true ↔ pat <:+: s := by
  induction s with
  | nil =>
    simp [containsSub, List.isEmpty_iff, List.infix_nil]
  | cons c rest ih =>
    simp only [containsSub, Bool.or_eq_true, List.isPrefixOf_iff_prefix, ih]
    exact (List.infix_cons_iff).symm

/-- If the (non-empty) pattern occurs in `s`, the replacement occurs in
`replacen1 pat repl s`. -/
theorem replacen1_infix (pat repl : Str) (hpat : pat ≠ []) :
    ∀ s : Str, pat <:+: s → repl <:+: replacen1 pat repl s := by
  intro s
  induction s with
  | nil =>
    intro h
    exact absurd (List.infix_nil.mp h) hpat
  | cons c rest ih =>
    intro h
    by_cases hp : pat.isPrefixOf (c :: rest) = true
    · rw [replacen1, if_pos hp]
      exact (List.prefix_append repl _).isInfix
    · rw [replacen1, if_neg hp]
      rcases List.infix_cons_iff.mp h with h1 | h2
      · exact absurd (List.isPrefixOf_iff_prefix.mpr h1) hp
      · exact List.infix_cons (ih h2)

/-- The placeholder needle `\x7bname\x7d` is never the empty string. -/
theorem phNeedle_ne_nil (name : Str) : phNeedle name ≠ [] := by
  simp [phNeedle]

/-- The placeholder tag `<ph>name</ph>` is never the empty string. -/
theorem phTag_ne_nil (name : Str) : phTag name ≠ [] := by
  simp [phTag]

/-- Lookup after an in-place insert. -/
theorem jLookup_imInsert (k : Str) (v : JValue) (m : List (Str × JValue)) (k2 : Str) :
    jLookup (imInsert k v m) k2 = if k2 = k then some v else jLookup m k2 := by
  induction m with
  | nil =>
    by_cases h : k2 = k <;> simp [imInsert, jLookup, List.find?, h]
    · simp [Eq.comm] at h ⊢
      simp [h]
  | cons e rest ih =>
    by_cases he : e.1 = k
    · rw [imInsert, if_pos he]
      by_cases h2 : k2 = k <;> simp [jLookup, List.find?, h2, he] <;>
        (simp [Eq.comm] at h2; simp [h2])
    · rw [imInsert, if_neg he]
      by_cases h2 : e.1 = k2
      · have hk2 : ¬ k2 = k := by rw [← h2]; exact fun hh => he hh
        simp [jLookup, List.find?, h2, hk2]
      · simp only [jLookup, List.find?] at ih ⊢
        simp [h2, ih]

/-- Key membership after an in-place insert. -/
theorem mem_keys_imInsert (k : Str) (v : JValue) (m : List (Str × JValue)) (k2 : Str) :
    k2 ∈ (imInsert k v m).map (fun e => e.1) ↔ k2 ∈ m.map (fun e => e.1) ∨ k2 = k := by
  induction m with
  | nil => simp [imInsert, Eq.comm]
  | cons e rest ih =>
    by_cases he : e.1 = k
    · rw [imInsert, if_pos he]
      simp [he, Eq.comm]
      tauto
    · rw [imInsert, if_neg he]
      simp only [List.map_cons, List.mem_cons, ih]
      tauto

/-- Inserting a fresh key appends the pair at the end. -/
theorem imInsert_not_mem (k : Str) (v : JValue) (m : List (Str × JValue))
    (h : k ∉ m.map (fun e => e.1)) : imInsert k v m = m ++ [(k, v)] := by
  induction m with
  | nil => rfl
  | cons e rest ih =>
    simp only [List.map_cons, List.mem_cons] at h
    push_neg at h
    rw [imInsert, if_neg (fun hh => h.1 hh.symm), ih h.2]
    rfl

/-- A fold of in-place inserts leaves untouched keys alone. -/
theorem foldl_imInsert_lookup_not_mem (entries : List (Str × JValue)) (k : Str)
    (h : k ∉ entries.map (fun e => e.1)) :
    ∀ acc : List (Str × JValue),
      jLookup (entries.foldl (fun a e => imInsert e.1 e.2 a) acc) k = jLookup acc k := by
  induction entries with
  | nil => intro acc; rfl
  | cons e rest ih =>
    intro acc
    simp only [List.map_cons, List.mem_cons] at h
    push_neg at h
    rw [List.foldl_cons, ih h.2, jLookup_imInsert, if_neg h.1]

/-- After folding a bundle with distinct keys into an accumulator, a key of
the bundle looks up to its bundle value. -/
theorem foldl_imInsert_lookup_mem (entries : List (Str × JValue)) (k : Str) (v : JValue)
    (hnd : (entries.map (fun e => e.1)).Nodup) (h : jLookup entries k = some v) :
    ∀ acc : List (Str × JValue),
      jLookup (entries.foldl (fun a e => imInsert e.1 e.2 a) acc) k = some v := by
  induction entries with
  | nil => simp [jLookup] at h
  | cons e rest ih =>
    intro acc
    simp only [List.map_cons, List.nodup_cons] at hnd
    by_cases he : e.1 = k
    · have hv : e.2 = v := by
        simp [jLookup, List.find?, he] at h
        exact h
      have hk : k ∉ rest.map (fun x => x.1) := he ▸ hnd.1
      rw [List.foldl_cons, foldl_imInsert_lookup_not_mem rest k hk,
        jLookup_imInsert, if_pos he.symm, hv]
    · have h2 : jLookup rest k = some v := by
        simpa [jLookup, List.find?, he] using h
      exact ih hnd.2 h2 (imInsert e.1 e.2 acc)

/-- Key membership of a fold of in-place inserts. -/
theorem mem_keys_foldl_imInsert (entries : List (Str × JValue)) (k : Str) :
    ∀ acc : List (Str × JValue),
      k ∈ ((entries.foldl (fun a e => imInsert e.1 e.2 a) acc).map (fun e => e.1)) ↔
        k ∈ acc.map (fun e => e.1) ∨ k ∈ entries.map (fun e => e.1) := by
  induction entries with
  | nil => simp
  | cons e rest ih =>
    intro acc
    rw [List.foldl_cons, ih (imInsert e.1 e.2 acc), mem_keys_imInsert]
    simp [Eq.comm]
    tauto

/-- Lemma: `ArbFile::placeholders` only ever fails with `AlreadyPrefixed` on its own
key. -/
theorem placeholders_error (f : ArbFile) (k : Str) (e : Err)
    (h : f.placeholders k = .error e) : e = .alreadyPrefixed k := by
  unfold ArbFile.placeholders at h
  split at h
  · exact (Except.error.inj h).symm
  · split at h <;> first
      | exact absurd h (by simp)
      | (split at h <;> exact absurd h (by simp))

/-- Lemma: `Placeholders::verify` only ever fails with `PlaceholderNotDefined`
carrying the source text. -/
theorem verify_error (names : List Str) (s : Str) (e : Err)
    (h : Placeholders.verify names s = .error e) :
    ∃ n, n ∈ names ∧ e = .placeholderNotDefined n s := by
  induction names with
  | nil => exact absurd h (by simp [Placeholders.verify])
  | cons n rest ih =>
    rw [Placeholders.verify] at h
    split at h
    · obtain ⟨n2, hn2, he⟩ := ih h
      exact ⟨n2, List.mem_cons_of_mem _ hn2, he⟩
    · exact ⟨n, List.mem_cons_self _ _, (Except.error.inj h).symm⟩

/-- Shape of a successful staging step: the entry is skipped, staged as a
pass-through, or staged for translation (the latter only outside dry runs,
also recording the source entry in the cache unless caching is disabled). -/
theorem stageEntry_cases (template : ArbFile) (d : FileDiff) (ov : Option ArbFile)
    (opts : TranslationOptions) (acc : StageAcc) (e : Str × JValue) (acc' : StageAcc)
    (h : stageEntry template d ov opts acc e = .ok acc') :
    acc' = acc ∨
    acc' = { acc with cached := acc.cached ++ [.entry e.1 e.2] } ∨
    (opts.dryRun = false ∧ ∃ names keyIndex text,
      acc' = { cached := acc.cached ++ [.translate e.1 e.2 names keyIndex],
               translatable := acc.translatable ++ [text],
               cache := if opts.disableCache = false
                 then acc.cache.addEntry opts.targetLang e.1 e.2
                 else acc.cache }) := by
  simp only [stageEntry] at h
  split at h
  · exact Or.inl (Except.ok.inj h).symm
  · split at h
    · exact Or.inl (Except.ok.inj h).symm
    · split at h
      · rename_i s hs
        split at h
        · exact Or.inr (Or.inl (by rw [← (Except.ok.inj h), hs]))
        · split at h
          · exact absurd h (by simp)
          · split at h
            · exact absurd h (by simp)
            · rename_i names hnames
              split at h
              · rename_i hdry
                exact Or.inr (Or.inr ⟨hdry, _, _, _, (Except.ok.inj h).symm⟩)
              · exact Or.inr (Or.inl (by rw [← (Except.ok.inj h), hs]))
      · exact Or.inr (Or.inl (Except.ok.inj h).symm)

/-- A staging step fails only on placeholder validation, never with a
count-mismatch or backend error. -/
theorem stageEntry_error (template : ArbFile) (d : FileDiff) (ov : Option ArbFile)
    (opts : TranslationOptions) (acc : StageAcc) (e : Str × JValue) (err : Err)
    (h : stageEntry template d ov opts acc e = .error err) :
    (∃ k, err = .alreadyPrefixed k) ∨ ∃ n t, err = .placeholderNotDefined n t := by
  simp only [stageEntry] at h
  split at h
  · exact absurd h (by simp)
  · split at h
    · exact absurd h (by simp)
    · split at h
      · rename_i s hs
        split at h
        · exact absurd h (by simp)
        · split at h
          · rename_i herr
            exact Or.inl ⟨e.1, Except.error.inj h ▸ placeholders_error _ _ _ herr⟩
          · split at h
            · rename_i e2 heq2
              split at heq2
              · rename_i ps hps
                cases hv : Placeholders.verify ps s with
                | ok u =>
                  rw [hv] at heq2
                  exact absurd heq2 (by simp [Except.map])
                | error e3 =>
                  obtain ⟨n, _, he⟩ := verify_error ps s e3 hv
                  rw [hv] at heq2
                  simp only [Except.map] at heq2
                  refine Or.inr ⟨n, s, ?_⟩
                  rw [← Except.error.inj h, ← Except.error.inj heq2, he]
              · exact absurd heq2 (by simp)
            · split at h <;> exact absurd h (by simp)
      · exact absurd h (by simp)

/-- An entry whose key has an override is skipped entirely by the staging
loop (intl.rs lines 395-401). -/
theorem stageEntry_override_skip (template : ArbFile) (d : FileDiff) (o : ArbFile)
    (opts : TranslationOptions) (acc : StageAcc) (e : Str × JValue) (v : JValue)
    (hk : o.lookupV e.1 = some v) :
    stageEntry template d (some o) opts acc e = .ok acc := by
  simp only [stageEntry]
  split
  · rfl
  · split
    · rfl
    · rename_i hcond
      exact absurd (by simp [hk]) hcond

/-- On a dry run the staging loop queues nothing and leaves the in-memory
cache untouched. -/
theorem stageList_dryRun (template : ArbFile) (d : FileDiff) (ov : Option ArbFile)
    (opts : TranslationOptions) (hdry : opts.dryRun = true) :
    ∀ (es : List (Str × JValue)) (acc : StageAcc),
      ((stageList template d ov opts es acc).1).translatable = acc.translatable ∧
      ((stageList template d ov opts es acc).1).cache = acc.cache := by
  intro es
  induction es with
  | nil => intro acc; exact ⟨rfl, rfl⟩
  | cons e rest ih =>
    intro acc
    rw [stageList]
    cases hse : stageEntry template d ov opts acc e with
    | error err => exact ⟨rfl, rfl⟩
    | ok acc' =>
      rcases stageEntry_cases _ _ _ _ _ _ _ hse with h1 | h1 | h1
      · rw [h1]
        exact ih acc
      · rw [h1]
        exact ih _
      · rw [hdry] at h1
        exact absurd h1.1 (by simp)

/-- No staged entry carries a key covered by the override bundle. -/
theorem stageList_override_keys (template : ArbFile) (d : FileDiff) (o : ArbFile)
    (opts : TranslationOptions) (k : Str) (v : JValue) (hk : o.lookupV k = some v) :
    ∀ (es : List (Str × JValue)) (acc : StageAcc),
      (∀ ce ∈ acc.cached, ce.keyOf ≠ k) →
      ∀ ce ∈ ((stageList template d (some o) opts es acc).1).cached, ce.keyOf ≠ k := by
  intro es
  induction es with
  | nil => intro acc hacc; exact hacc
  | cons e rest ih =>
    intro acc hacc
    by_cases he : e.1 = k
    · have hk2 : o.lookupV e.1 = some v := by rw [he]; exact hk
      rw [stageList, stageEntry_override_skip template d o opts acc e v hk2]
      exact ih acc hacc
    · rw [stageList]
      cases hse : stageEntry template d (some o) opts acc e with
      | error err => exact hacc
      | ok acc' =>
        refine ih acc' ?_
        intro ce hce
        rcases stageEntry_cases _ _ _ _ _ _ _ hse with h1 | h1 | h1
        · exact hacc ce (h1 ▸ hce)
        · rw [h1] at hce
          rcases List.mem_append.mp hce with h2 | h2
          · exact hacc ce h2
          · simp only [List.mem_singleton] at h2
            rw [h2, CachedEntry.keyOf]
            exact he
        · obtain ⟨-, names, keyIndex, text, hacc'⟩ := h1
          rw [hacc'] at hce
          rcases List.mem_append.mp hce with h2 | h2
          · exact hacc ce h2
          · simp only [List.mem_singleton] at h2
            rw [h2, CachedEntry.keyOf]
            exact he

/-- Key membership after `insert_entry`. -/
theorem mem_keys_insertEntry (f : ArbFile) (k : Str) (v : JValue) (k2 : Str) :
    k2 ∈ (f.insertEntry k v).keysOf ↔ k2 ∈ f.keysOf ∨ k2 = k :=
  mem_keys_imInsert k v f.contents k2

/-- Key membership of the filtered list used by `shift_remove`. -/
theorem mem_keys_filter_ne (m : List (Str × JValue)) (k k2 : Str) :
    k2 ∈ (m.filter (fun e => ¬ e.1 = k)).map (fun e => e.1) ↔
      k2 ∈ m.map (fun e => e.1) ∧ k2 ≠ k := by
  simp only [List.mem_map, List.mem_filter, decide_not, Bool.not_eq_true', decide_eq_false_iff_not]
  constructor
  · rintro ⟨e, ⟨he, hne⟩, rfl⟩
    exact ⟨⟨e, he, rfl⟩, hne⟩
  · rintro ⟨⟨e, he, rfl⟩, hne⟩
    exact ⟨e, ⟨he, hne⟩, rfl⟩

/-- Key membership after the translated-value insertion step. -/
theorem mem_keys_insertTranslated (out : ArbFile) (k : Str) (t : Str)
    (idx : Option Nat) (k2 : Str) :
    k2 ∈ (insertTranslated out k t idx).keysOf ↔ k2 ∈ out.keysOf ∨ k2 = k := by
  rcases idx with _ | i
  · exact mem_keys_imInsert k (.str t) out.contents k2
  · rw [insertTranslated]
    split
    · rw [ArbFile.shiftInsertTranslation, ArbFile.keysOf]
      simp only [List.map_append, List.map_cons, List.mem_append, List.mem_cons]
      constructor
      · rintro (h | h | h)
        · have h2 : k2 ∈ (out.contents.filter (fun e => ¬ e.1 = k)).map (fun e => e.1) :=
            List.mem_of_mem_take (by rw [List.map_take] at *; exact h)
          exact Or.inl ((mem_keys_filter_ne _ _ _).mp h2).1
        · exact Or.inr h
        · have h2 : k2 ∈ (out.contents.filter (fun e => ¬ e.1 = k)).map (fun e => e.1) :=
            List.mem_of_mem_drop (by rw [List.map_drop] at *; exact h)
          exact Or.inl ((mem_keys_filter_ne _ _ _).mp h2).1
      · intro h
        by_cases hk : k2 = k
        · exact Or.inr (Or.inl hk)
        · rcases h with h | h
          · have h2 : k2 ∈ (out.contents.filter (fun e => ¬ e.1 = k)).map (fun e => e.1) :=
              (mem_keys_filter_ne _ _ _).mpr ⟨h, hk⟩
            rw [← List.take_append_drop i ((out.contents.filter
              (fun e => ¬ e.1 = k)).map (fun e => e.1))] at h2
            rcases List.mem_append.mp h2 with h3 | h3
            · exact Or.inl (by rw [List.map_take]; exact h3)
            · exact Or.inr (Or.inr (by rw [List.map_drop]; exact h3))
          · exact absurd h hk
    · exact mem_keys_imInsert k (.str t) out.contents k2

/-- The apply loop never loses keys of the output bundle. -/
theorem mem_keys_applyCached_of_mem (k2 : Str) :
    ∀ (cached : List CachedEntry) (rs : List Str) (out : ArbFile),
      k2 ∈ out.keysOf → k2 ∈ (applyCached cached rs out).keysOf := by
  intro cached
  induction cached with
  | nil => intro rs out h; exact h
  | cons ce rest ih =>
    intro rs out h
    cases ce with
    | entry k v =>
      exact ih rs _ ((mem_keys_insertEntry out k v k2).mpr (Or.inl h))
    | translate k v names index =>
      cases rs with
      | nil => exact ih [] out h
      | cons t rs' =>
        exact ih rs' _ ((mem_keys_insertTranslated out k _ index k2).mpr (Or.inl h))

/-- The apply loop inserts every staged pass-through entry. -/
theorem mem_keys_applyCached_entry (k : Str) (v : JValue) :
    ∀ (cached : List CachedEntry) (rs : List Str) (out : ArbFile),
      CachedEntry.entry k v ∈ cached → k ∈ (applyCached cached rs out).keysOf := by
  intro cached
  induction cached with
  | nil => intro rs out h; exact absurd h (List.not_mem_nil _)
  | cons ce rest ih =>
    intro rs out h
    rcases List.mem_cons.mp h with h1 | h1
    · rw [← h1]
      exact mem_keys_applyCached_of_mem k rest rs _
        ((mem_keys_insertEntry out k v k).mpr (Or.inr rfl))
    · cases ce with
      | entry k3 v3 => exact ih rs _ h1
      | translate k3 v3 names index =>
        cases rs with
        | nil => exact ih [] out h1
        | cons t rs' => exact ih rs' _ h1

/-- Key membership after the override pass. -/
theorem mem_keys_applyOverrides (out : ArbFile) (ov : Option ArbFile) (k2 : Str) :
    k2 ∈ (applyOverrides out ov).keysOf ↔
      k2 ∈ out.keysOf ∨ ∃ o, ov = some o ∧ k2 ∈ o.keysOf := by
  rcases ov with _ | o
  · simp [applyOverrides]
  · rw [applyOverrides, ArbFile.keysOf]
    rw [mem_keys_foldl_imInsert o.contents k2 out.contents]
    simp [ArbFile.keysOf]

/-- Override values win in the final output: after the override pass a key of
an override bundle with distinct keys looks up to its override value. -/
theorem applyOverrides_lookup (out o : ArbFile) (k : Str) (v : JValue)
    (hnd : o.keysOf.Nodup) (hk : o.lookupV k = some v) :
    (applyOverrides out (some o)).lookupV k = some v :=
  foldl_imInsert_lookup_mem o.contents k v hnd hk out.contents

/-- A failed staging loop only reports placeholder validation errors. -/
theorem stageList_error (template : ArbFile) (d : FileDiff) (ov : Option ArbFile)
    (opts : TranslationOptions) :
    ∀ (es : List (Str × JValue)) (acc : StageAcc) (err : Err),
      (stageList template d ov opts es acc).2 = some err →
      (∃ k, err = .alreadyPrefixed k) ∨ ∃ n t, err = .placeholderNotDefined n t := by
  intro es
  induction es with
  | nil => intro acc err h; exact absurd h (by simp [stageList])
  | cons e rest ih =>
    intro acc err h
    rw [stageList] at h
    cases hse : stageEntry template d ov opts acc e with
    | error err2 =>
      rw [hse] at h
      cases Option.some.inj h
      exact stageEntry_error template d ov opts acc e _ hse
    | ok acc' =>
      rw [hse] at h
      exact ih acc' err h

/-- Shape of a successful `Intl::translate` run, in terms of the staging
result: the returned template, length, final cache, cache-file write flag,
and the two forms of the output bundle (no backend call when nothing was
queued, one call otherwise). -/
theorem translate_ok_shape (api : List Str → Except Nat (List Str))
    (tpl tgt : ArbFile) (c0 : ArbCache) (opts : TranslationOptions) (res : TranslateResult)
    (h : (Intl.translate api tpl tgt c0 opts).result = .ok res) :
    (stageOf tpl tgt c0 opts).2 = none
    ∧ res.template = tpl
    ∧ res.length = ((stageOf tpl tgt c0 opts).1).translatable.length
    ∧ (Intl.translate api tpl tgt c0 opts).cache =
        ((stageOf tpl tgt c0 opts).1).cache.removeKeysFor opts.targetLang
          (diffOf tpl tgt c0 opts).delete
    ∧ (Intl.translate api tpl tgt c0 opts).cacheWritten = !opts.disableCache
    ∧ ((((stageOf tpl tgt c0 opts).1).translatable = [] ∧
          (Intl.translate api tpl tgt c0 opts).request = none ∧
          res.translated = applyOverrides
            (tgt.removeKeys (diffOf tpl tgt c0 opts).delete) (effOverrides opts))
        ∨ (((stageOf tpl tgt c0 opts).1).translatable ≠ [] ∧
          (Intl.translate api tpl tgt c0 opts).request =
            some ((stageOf tpl tgt c0 opts).1).translatable ∧
          ∃ rs, api ((stageOf tpl tgt c0 opts).1).translatable = .ok rs ∧
            rs.length = ((stageOf tpl tgt c0 opts).1).translatable.length ∧
            res.translated = applyOverrides
              (applyCached ((stageOf tpl tgt c0 opts).1).cached rs
                (tgt.removeKeys (diffOf tpl tgt c0 opts).delete))
              (effOverrides opts))) := by
  simp only [Intl.translate] at h ⊢
  rcases hso : stageOf tpl tgt c0 opts with ⟨st, oe⟩
  rw [hso] at h
  cases oe with
  | some err => exact absurd h (by simp)
  | none =>
    simp only at h ⊢
    by_cases hemp : st.translatable.isEmpty
    · rw [if_pos hemp] at h ⊢
      have hres := (Except.ok.inj h).symm
      have hempl : st.translatable = [] := List.isEmpty_iff.mp hemp
      refine ⟨trivial, by rw [hres], by rw [hres, hempl], rfl, rfl,
        Or.inl ⟨hempl, rfl, by rw [hres]⟩⟩
    · rw [if_neg hemp] at h ⊢
      have hne : st.translatable ≠ [] := fun hh => hemp (by rw [hh]; rfl)
      cases hapi : api st.translatable with
      | error code =>
        rw [hapi] at h
        exact absurd h (by simp)
      | ok translations =>
        rw [hapi] at h
        simp only at h ⊢
        by_cases hlen : translations.length ≠ st.translatable.length
        · rw [if_pos hlen] at h
          exact absurd h (by simp)
        · rw [if_neg hlen] at h ⊢
          push_neg at hlen
          have hres := (Except.ok.inj h).symm
          refine ⟨trivial, by rw [hres], by rw [hres], rfl, rfl,
            Or.inr ⟨hne, rfl, translations, rfl, hlen, by rw [hres]⟩⟩

/-- A removed key is gone from the bundle's key list. -/
theorem not_mem_keys_removeKeys (f : ArbFile) (ks : Finset Str) (k : Str)
    (hk : k ∈ ks) : k ∉ (f.removeKeys ks).keysOf := by
  intro h
  rw [ArbFile.removeKeys, ArbFile.keysOf] at h
  obtain ⟨e, he, hek⟩ := List.mem_map.mp h
  have := (List.mem_filter.mp he).2
  rw [hek] at this
  simp [hk] at this

/-- A removed key no longer looks up in the bundle. -/
theorem removeKeys_lookupV_none (f : ArbFile) (ks : Finset Str) (k : Str)
    (hk : k ∈ ks) : (f.removeKeys ks).lookupV k = none := by
  rw [ArbFile.removeKeys, ArbFile.lookupV]
  rw [List.find?_eq_none.mpr]
  · rfl
  · intro e he
    have h2 := (List.mem_filter.mp he).2
    simp only [decide_not, Bool.not_eq_true', decide_eq_false_iff_not] at h2
    simp only [decide_eq_true_eq]
    intro hek
    exact h2 (hek ▸ hk)

/-- Deleting keys for one language leaves that language's cache slot equal to
the filtered bundle. -/
theorem getFile_removeKeysFor (c : ArbCache) (lang : Str) (ks : Finset Str) :
    (c.removeKeysFor lang ks).getFile lang = (c.getFile lang).map (fun f => f.removeKeys ks) := by
  rw [ArbCache.removeKeysFor, ArbCache.getFile, ArbCache.getFile]
  induction c.files with
  | nil => rfl
  | cons e rest ih =>
    by_cases he : e.1 = lang
    · simp [List.find?, he]
    · simp only [List.map_cons, List.find?, if_neg he]
      simpa [he] using ih

/-! ### Claim theorems -/

/-- C4: for every template `T`, target `X` and optional cache, the diff's
`create` set equals `keys(T) − keys(X)` and its `delete` set equals
`keys(X) − keys(T)` as unordered key sets, and the two sets are disjoint. -/
theorem diff_create_delete_set_differences (T X : ArbFile) (cache : Option ArbFile) :
    (T.diff X cache).create = T.keyset \ X.keyset
    ∧ (T.diff X cache).delete = X.keyset \ T.keyset
    ∧ Disjoint (T.diff X cache).create (T.diff X cache).delete := by
  refine ⟨rfl, rfl, ?_⟩
  show Disjoint (T.keyset \ X.keyset) (X.keyset \ T.keyset)
  exact disjoint_sdiff_sdiff

/-- C5: a key is in the diff's `update` set iff it is present in both the
template and the cache with differing values there; this does not consult
the target (hence is independent of `create`/`delete` membership), and with
no cache the `update` set is empty. -/
theorem diff_update_characterization (T X C : ArbFile) (k : Str) :
    (k ∈ (T.diff X (some C)).update ↔
      ∃ cur cv, T.lookupV k = some cur ∧ C.lookupV k = some cv ∧ cur ≠ cv)
    ∧ (T.diff X none).update = ∅ := by
  refine ⟨?_, rfl⟩
  simp only [ArbFile.diff, List.mem_toFinset, List.mem_map]
  constructor
  · rintro ⟨e, he, rfl⟩
    obtain ⟨hmem, hp⟩ := List.mem_filter.mp he
    revert hp
    cases hT : T.lookupV e.1 with
    | none => simp
    | some cur =>
      cases hC : C.lookupV e.1 with
      | none => simp
      | some cv =>
        simp only [decide_eq_true_eq]
        intro hne
        exact ⟨cur, cv, rfl, rfl, hne⟩
  · rintro ⟨cur, cv, hT, hC, hne⟩
    rw [ArbFile.lookupV] at hC
    cases hf : C.contents.find? (fun e => e.1 = k) with
    | none => rw [hf] at hC; exact absurd hC (by simp)
    | some e =>
      rw [hf] at hC
      have hek : e.1 = k := by simpa using List.find?_some hf
      have hmem : e ∈ C.contents := List.mem_of_find?_eq_some hf
      refine ⟨e, List.mem_filter.mpr ⟨hmem, ?_⟩, hek⟩
      rw [hek, hT]
      have hCk : C.lookupV k = some cv := by rw [ArbFile.lookupV, hf]; exact hC
      rw [hCk]
      simpa using hne

/-- C9: looking up placeholders fails with `AlreadyPrefixed` exactly when the
key itself starts with `@`; for any other key it succeeds, returning the
member names of the `placeholders` object of the `@`-prefixed metadata entry
when that entry exists, is an object and has an object-valued `placeholders`
member, and `none` in every other case. -/
theorem placeholders_characterization (f : ArbFile) (k : Str) :
    (f.placeholders k = .error (.alreadyPrefixed k) ↔ isPrefixed k = true)
    ∧ (isPrefixed k = false →
      f.placeholders k = .ok (match f.lookupV ('@' :: k) with
        | some (.obj m) =>
          match jLookup m placeholdersKey with
          | some (.obj p) => some (p.map (fun e => e.1))
          | _ => none
        | _ => none)) := by
  constructor
  · constructor
    · intro h
      by_contra hp
      rw [ArbFile.placeholders, if_neg hp] at h
      split at h
      · split at h <;> exact absurd h (by simp)
      · exact absurd h (by simp)
    · intro hp
      rw [ArbFile.placeholders, if_pos hp]
  · intro hp
    have hp2 : ¬ isPrefixed k = true := by rw [hp]; exact Bool.false_ne_true
    rw [ArbFile.placeholders, if_neg hp2]
    split
    · rename_i m hm
      split <;> rfl
    · rename_i hother
      cases hv : f.lookupV ('@' :: k) with
      | none => rfl
      | some v =>
        cases v with
        | obj m => exact absurd hv (hother m)
        | null => rfl
        | bool b => rfl
        | num n => rfl
        | str s => rfl
        | arr xs => rfl

/-- C9 witness: the empty bundle rejects the `@`-prefixed key `@k`, and the
metadata fixture reports the declared placeholder `name` for key `k`. -/
theorem placeholders_characterization_witness :
    ArbFile.placeholders ⟨[]⟩ "@k".toList = .error (.alreadyPrefixed "@k".toList)
    ∧ ArbFile.placeholders exMetaTemplate "k".toList = .ok (some ["name".toList]) :=
  ⟨(placeholders_characterization ⟨[]⟩ "@k".toList).1.mpr (by decide),
    ((placeholders_characterization exMetaTemplate "k".toList).2 (by decide)).trans (by decide)⟩

/-- C8: `verify` fails with `PlaceholderNotDefined` — carrying the offending
name and the source text — exactly on the first declared name (in
declaration order) whose literal `\x7bname\x7d` needle is absent from the text,
and succeeds otherwise; and inside `translate` such a failure aborts the run
before any backend request is issued. -/
theorem verify_first_missing_aborts_before_request (names : List Str) (text : Str) :
    (Placeholders.verify names text =
      match names.find? (fun n => !containsSub text (phNeedle n)) with
      | some n => .error (.placeholderNotDefined n text)
      | none => .ok ())
    ∧ (∀ (api : List Str → Except Nat (List Str)) (template target : ArbFile)
        (cache0 : ArbCache) (opts : TranslationOptions) (n t : Str),
        (Intl.translate api template target cache0 opts).result =
          .error (.placeholderNotDefined n t) →
        (Intl.translate api template target cache0 opts).request = none) := by
  constructor
  · induction names with
    | nil => rfl
    | cons n rest ih =>
      rw [Placeholders.verify]
      cases hc : containsSub text (phNeedle n) with
      | true =>
        rw [if_pos rfl]
        rw [List.find?]
        simp only [hc, Bool.not_true]
        exact ih
      | false =>
        rw [if_neg (by simp)]
        rw [List.find?]
        simp only [hc, Bool.not_false]
  · intro api template target cache0 opts n t h
    simp only [Intl.translate] at h ⊢
    rcases hso : stageOf template target cache0 opts with ⟨st, oe⟩
    rw [hso] at h
    cases oe with
    | some err => rfl
    | none =>
      simp only at h
      by_cases hemp : st.translatable.isEmpty
      · rw [if_pos hemp] at h
        exact absurd h (by simp)
      · rw [if_neg hemp] at h
        cases hapi : api st.translatable with
        | error code =>
          rw [hapi] at h
          exact absurd h (by simp)
        | ok translations =>
          rw [hapi] at h
          simp only at h
          by_cases hlen : translations.length ≠ st.translatable.length
          · rw [if_pos hlen] at h
            exact absurd h (by simp)
          · rw [if_neg hlen] at h
            exact absurd h (by simp)

/-- C8 witness: verifying `Hello` against declared name `name` reports that
name with the text, and the corresponding full run aborts with that error
without issuing a request. -/
theorem verify_first_missing_aborts_before_request_witness :
    Placeholders.verify ["name".toList] "Hello".toList =
      .error (.placeholderNotDefined "name".toList "Hello".toList)
    ∧ (Intl.translate echoApi exBadTemplate ⟨[]⟩ ⟨[]⟩ exPlainOptions).result =
        .error (.placeholderNotDefined "name".toList "Hello".toList)
    ∧ (Intl.translate echoApi exBadTemplate ⟨[]⟩ ⟨[]⟩ exPlainOptions).request = none :=
  ⟨(verify_first_missing_aborts_before_request ["name".toList] "Hello".toList).1.trans
      (by decide),
    by decide,
    (verify_first_missing_aborts_before_request ["name".toList] "Hello".toList).2
      echoApi exBadTemplate ⟨[]⟩ ⟨[]⟩ exPlainOptions "name".toList "Hello".toList (by decide)⟩

/-- C6: for every source string that contains the literal needle
`\x7bname\x7d`, protecting the string, passing it through an identity backend
and restoring yields a string that again contains `\x7bname\x7d`; and on the
example `Hello \x7bname\x7d` the round trip is the identity. -/
theorem protect_restore_roundtrip (name s : Str) (h : phNeedle name <:+: s) :
    phNeedle name <:+: restoreTags (some [name]) (protectTags [name] s)
    ∧ restoreTags (some ["name".toList])
        (protectTags ["name".toList] "Hello {name}".toList) = "Hello {name}".toList := by
  constructor
  · have h1 : phTag name <:+: protectTags [name] s := by
      rw [protectTags]
      simp only [List.foldl_cons, List.foldl_nil]
      exact replacen1_infix _ _ (phNeedle_ne_nil name) s h
    rw [restoreTags]
    simp only [List.foldl_cons, List.foldl_nil]
    exact replacen1_infix _ _ (phTag_ne_nil name) _ h1
  · decide

/-- C6 witness: the example string contains its needle, and the round trip
keeps the needle present. -/
theorem protect_restore_roundtrip_witness :
    phNeedle "name".toList <:+: "Hello {name}".toList
    ∧ phNeedle "name".toList <:+:
        restoreTags (some ["name".toList])
          (protectTags ["name".toList] "Hello {name}".toList) :=
  ⟨by decide,
    (protect_restore_roundtrip "name".toList "Hello {name}".toList (by decide)).1⟩

/-- C1 counterexample: in a dry run to French, `helloWorld` is in the diff's
`create` set and is staged as a pass-through entry, yet the returned output
bundle is empty — the staged pass-through entry was not applied, because the
queued-text list is empty in every dry run and the apply loop only runs when
that list is non-empty (intl.rs line 479). -/
theorem dry_run_passthrough_not_applied :
    "helloWorld".toList ∈ (diffOf exTemplate ⟨[]⟩ ⟨[]⟩ exDryRunOptions).create
    ∧ ((stageOf exTemplate ⟨[]⟩ ⟨[]⟩ exDryRunOptions).1).cached =
        [.entry "helloWorld".toList (.str "Hello world".toList)]
    ∧ (Intl.translate echoApi exTemplate ⟨[]⟩ ⟨[]⟩ exDryRunOptions).result =
        .ok ⟨exTemplate, ⟨[]⟩, 0⟩ := by
  refine ⟨by decide, by decide, by decide⟩

/-- C1 amended: staged pass-through entries are applied to the output bundle
only in runs where at least one text string was queued for the backend; when
the queued list is empty (as in every dry run) no pass-through entry is
applied and the output is the target bundle minus the deleted keys plus the
overrides. -/
theorem passthrough_applied_only_when_queued (api : List Str → Except Nat (List Str))
    (tpl tgt : ArbFile) (c0 : ArbCache) (opts : TranslationOptions) (res : TranslateResult)
    (h : (Intl.translate api tpl tgt c0 opts).result = .ok res) :
    (res.length = 0 →
      res.translated = applyOverrides
        (tgt.removeKeys (diffOf tpl tgt c0 opts).delete) (effOverrides opts))
    ∧ (res.length ≠ 0 →
      ∀ k v, CachedEntry.entry k v ∈ ((stageOf tpl tgt c0 opts).1).cached →
        k ∈ res.translated.keysOf) := by
  obtain ⟨h1, h2, h3, h4, h5, h6⟩ := translate_ok_shape api tpl tgt c0 opts res h
  constructor
  · intro hlen
    rcases h6 with ⟨hemp, hreq, htr⟩ | ⟨hne, hrest⟩
    · exact htr
    · rw [h3] at hlen
      exact absurd (List.length_eq_zero.mp hlen) hne
  · intro hlen k v hmem
    rcases h6 with ⟨hemp, hreq, htr⟩ | ⟨hne, hreq, rs, hrs, hlen2, htr⟩
    · rw [h3, hemp] at hlen
      exact absurd rfl hlen
    · rw [htr]
      exact (mem_keys_applyOverrides _ _ k).mpr
        (Or.inl (mem_keys_applyCached_entry k v _ rs _ hmem))

/-- C1 amended witness: the dry run of the counterexample fixture satisfies
the amended description — its output is the (empty) target minus deletions
plus (no) overrides. -/
theorem passthrough_applied_only_when_queued_witness :
    (Intl.translate echoApi exTemplate ⟨[]⟩ ⟨[]⟩ exDryRunOptions).result =
      .ok ⟨exTemplate, ⟨[]⟩, 0⟩
    ∧ (⟨exTemplate, ⟨[]⟩, 0⟩ : TranslateResult).translated =
        applyOverrides ((ArbFile.mk []).removeKeys
          (diffOf exTemplate ⟨[]⟩ ⟨[]⟩ exDryRunOptions).delete)
          (effOverrides exDryRunOptions) :=
  ⟨by decide,
    (passthrough_applied_only_when_queued echoApi exTemplate ⟨[]⟩ ⟨[]⟩ exDryRunOptions
      ⟨exTemplate, ⟨[]⟩, 0⟩ (by decide)).1 (by decide)⟩

/-- C2 counterexample: on a run where the backend returns zero translations
for one queued string, `translate` fails with `TranslationLength 1 0` and the
cache file is not written, but the run's in-memory cache is *not* left
unmodified: it now records the queued entry (it was added at queue time,
before the backend call, intl.rs line 450). -/
theorem count_mismatch_cache_modified :
    Intl.translate emptyApi exTemplate ⟨[]⟩ ⟨[]⟩ exPlainOptions =
      { result := .error (.translationLength 1 0),
        cache := ⟨[("fr".toList, ⟨[("helloWorld".toList, .str "Hello world".toList)]⟩)]⟩,
        cacheWritten := false,
        request := some ["Hello world".toList] }
    ∧ (⟨[("fr".toList, ⟨[("helloWorld".toList, .str "Hello world".toList)]⟩)]⟩ : ArbCache)
        ≠ (⟨[]⟩ : ArbCache) := by
  refine ⟨by decide, by decide⟩

/-- C2 amended: when the backend's translation count differs from the number
of queued strings, the run fails with `TranslationLength` carrying the
queued count and the returned count, no output bundle is produced, and the
cache file is not written — though entries recorded in the in-memory cache
at queue time remain there. -/
theorem count_mismatch_no_commit (api : List Str → Except Nat (List Str))
    (tpl tgt : ArbFile) (c0 : ArbCache) (opts : TranslationOptions) (n m : Nat)
    (h : (Intl.translate api tpl tgt c0 opts).result = .error (.translationLength n m)) :
    (Intl.translate api tpl tgt c0 opts).cacheWritten = false
    ∧ (Intl.translate api tpl tgt c0 opts).request =
        some ((stageOf tpl tgt c0 opts).1).translatable
    ∧ ((stageOf tpl tgt c0 opts).1).translatable.length = n
    ∧ (∃ rs, api ((stageOf tpl tgt c0 opts).1).translatable = .ok rs ∧ rs.length = m)
    ∧ n ≠ m := by
  simp only [Intl.translate] at h ⊢
  rcases hso : stageOf tpl tgt c0 opts with ⟨st, oe⟩
  rw [hso] at h
  cases oe with
  | some err =>
    simp only at h
    have herr : err = .translationLength n m := Except.error.inj h
    have h2 : (stageList tpl (diffOf tpl tgt c0 opts) (effOverrides opts) opts
        tpl.entries ⟨[], [], c0⟩).2 = some err := by
      show (stageOf tpl tgt c0 opts).2 = some err
      rw [hso]
    rcases stageList_error tpl (diffOf tpl tgt c0 opts) (effOverrides opts) opts
        tpl.entries ⟨[], [], c0⟩ err h2 with ⟨k2, hk2⟩ | ⟨n2, t2, hk2⟩ <;>
      rw [herr] at hk2 <;> exact absurd hk2 (by simp)
  | none =>
    simp only at h ⊢
    by_cases hemp : st.translatable.isEmpty
    · rw [if_pos hemp] at h
      exact absurd h (by simp)
    · rw [if_neg hemp] at h ⊢
      cases hapi : api st.translatable with
      | error code =>
        rw [hapi] at h
        exact absurd h (by simp)
      | ok translations =>
        rw [hapi] at h
        simp only at h ⊢
        by_cases hlen : translations.length ≠ st.translatable.length
        · rw [if_pos hlen] at h ⊢
          have hinj := Except.error.inj h
          have hn : st.translatable.length = n := (Err.translationLength.inj hinj).1
          have hm : translations.length = m := (Err.translationLength.inj hinj).2
          refine ⟨rfl, rfl, hn, ⟨translations, rfl, hm⟩, ?_⟩
          rw [← hn, ← hm]
          exact fun hh => hlen hh.symm
        · rw [if_neg hlen] at h
          exact absurd h (by simp)

/-- C2 amended witness: the counterexample run satisfies the amended
description — the cache-file write flag is off, the request held one string,
the backend answered with zero, and 1 differs from 0. -/
theorem count_mismatch_no_commit_witness :
    (Intl.translate emptyApi exTemplate ⟨[]⟩ ⟨[]⟩ exPlainOptions).cacheWritten = false
    ∧ (Intl.translate emptyApi exTemplate ⟨[]⟩ ⟨[]⟩ exPlainOptions).request =
        some ((stageOf exTemplate ⟨[]⟩ ⟨[]⟩ exPlainOptions).1).translatable
    ∧ ((stageOf exTemplate ⟨[]⟩ ⟨[]⟩ exPlainOptions).1).translatable.length = 1
    ∧ (∃ rs, emptyApi ((stageOf exTemplate ⟨[]⟩ ⟨[]⟩ exPlainOptions).1).translatable =
        .ok rs ∧ rs.length = 0)
    ∧ (1 : Nat) ≠ 0 :=
  count_mismatch_no_commit emptyApi exTemplate ⟨[]⟩ ⟨[]⟩ exPlainOptions 1 0 (by decide)

/-- C3: a key covered by the override bundle for the target language is
never staged (so its text never reaches the outbound batch and contributes
nothing to the count), and in the final output bundle that key holds exactly
its override value. -/
theorem override_key_not_queued_and_wins (api : List Str → Except Nat (List Str))
    (tpl tgt : ArbFile) (c0 : ArbCache) (opts : TranslationOptions) (ov : ArbFile)
    (k : Str) (v : JValue) (res : TranslateResult)
    (hov : effOverrides opts = some ov)
    (hnd : ov.keysOf.Nodup)
    (hk : ov.lookupV k = some v)
    (h : (Intl.translate api tpl tgt c0 opts).result = .ok res) :
    (∀ ce ∈ ((stageOf tpl tgt c0 opts).1).cached, ce.keyOf ≠ k)
    ∧ res.translated.lookupV k = some v := by
  constructor
  · have hall := stageList_override_keys tpl (diffOf tpl tgt c0 opts) ov opts k v hk
      tpl.entries ⟨[], [], c0⟩ (by simp)
    simp only [stageOf, hov]
    exact hall
  · obtain ⟨-, -, -, -, -, h6⟩ := translate_ok_shape api tpl tgt c0 opts res h
    rcases h6 with ⟨-, -, htr⟩ | ⟨-, -, rs, -, -, htr⟩ <;>
      rw [htr, hov] <;> exact applyOverrides_lookup _ ov k v hnd hk

/-- C3 witness: in the override-fixture run, no staged entry carries key `a`
and the output holds the override value `X` for `a`, even though `a` is in
the diff's `create` set. -/
theorem override_key_not_queued_and_wins_witness :
    "a".toList ∈ (diffOf exTemplateAB ⟨[]⟩ ⟨[]⟩ exOverrideOptions).create
    ∧ (∀ ce ∈ ((stageOf exTemplateAB ⟨[]⟩ ⟨[]⟩ exOverrideOptions).1).cached,
        ce.keyOf ≠ "a".toList)
    ∧ (⟨exTemplateAB,
        ⟨[("b".toList, .str "B".toList), ("a".toList, .str "X".toList)]⟩, 1⟩ :
          TranslateResult).translated.lookupV "a".toList = some (.str "X".toList) :=
  ⟨by decide,
    (override_key_not_queued_and_wins echoApi exTemplateAB ⟨[]⟩ ⟨[]⟩ exOverrideOptions
      exOverridesA "a".toList (.str "X".toList)
      ⟨exTemplateAB, ⟨[("b".toList, .str "B".toList), ("a".toList, .str "X".toList)]⟩, 1⟩
      (by decide) (by decide) (by decide) (by decide)).1,
    (override_key_not_queued_and_wins echoApi exTemplateAB ⟨[]⟩ ⟨[]⟩ exOverrideOptions
      exOverridesA "a".toList (.str "X".toList)
      ⟨exTemplateAB, ⟨[("b".toList, .str "B".toList), ("a".toList, .str "X".toList)]⟩, 1⟩
      (by decide) (by decide) (by decide) (by decide)).2⟩

/-- C7 counterexample: key `b` sits at template position 1 and is in the
diff's `create` set, but because the earlier key `a` is skipped for its
override, the output bundle is shorter than the recorded index at insertion
time and `b` is appended at position 0, not inserted at position 1. -/
theorem created_key_not_at_template_position :
    exTemplateAB.indexOf "b".toList = some 1
    ∧ "b".toList ∈ (diffOf exTemplateAB ⟨[]⟩ ⟨[]⟩ exOverrideOptions).create
    ∧ (Intl.translate echoApi exTemplateAB ⟨[]⟩ ⟨[]⟩ exOverrideOptions).result =
        .ok ⟨exTemplateAB,
          ⟨[("b".toList, .str "B".toList), ("a".toList, .str "X".toList)]⟩, 1⟩
    ∧ ArbFile.indexOf
        ⟨[("b".toList, .str "B".toList), ("a".toList, .str "X".toList)]⟩
        "b".toList = some 0 := by
  refine ⟨by decide, by decide, by decide, by decide⟩

/-- C7 amended: the translated value of a newly created key recorded for
template position `i` is placed at position `i` (shifting later entries)
only when `i` is below the output bundle's current length; otherwise it is
appended at the end — i.e. it always lands at position `min i len`. -/
theorem created_key_insert_position (out : ArbFile) (k : Str) (txt : Str) (i : Nat)
    (h : k ∉ out.keysOf) :
    (insertTranslated out k txt (some i)).indexOf k = some (min i out.len) := by
  have hforall : ∀ e ∈ out.contents, ¬ e.1 = k := by
    intro e he hek
    exact h (List.mem_map.mpr ⟨e, he, hek⟩)
  by_cases hlt : i < out.len
  · rw [insertTranslated, if_pos hlt, ArbFile.shiftInsertTranslation]
    have hfe : out.contents.filter (fun e => ¬ e.1 = k) = out.contents :=
      List.filter_eq_self.mpr (fun e he => by simpa using hforall e he)
    rw [hfe, ArbFile.indexOf, List.findIdx?_append]
    have htake : List.findIdx? (fun e => e.1 = k) (out.contents.take i) = none := by
      rw [List.findIdx?_eq_none_iff]
      intro e he
      simpa using hforall e (List.mem_of_mem_take he)
    rw [htake, List.findIdx?_cons]
    simp only [decide_eq_true_eq, if_true]
    rw [Option.none_or, Option.map_some', List.length_take]
    rw [Nat.min_eq_left (Nat.le_of_lt hlt)]
    have h2 : i ⊓ out.contents.length = i := Nat.min_eq_left (Nat.le_of_lt hlt)
    rw [h2, Nat.zero_add]
  · rw [insertTranslated, if_neg hlt, ArbFile.insertTranslation, ArbFile.indexOf,
      imInsert_not_mem k (.str txt) out.contents h, List.findIdx?_append]
    have hnone : List.findIdx? (fun e => e.1 = k) out.contents = none := by
      rw [List.findIdx?_eq_none_iff]
      intro e he
      simpa using hforall e he
    rw [hnone, List.findIdx?_cons]
    simp only [decide_eq_true_eq, if_true]
    rw [Option.none_or, Option.map_some']
    rw [Nat.min_eq_right (Nat.le_of_not_lt hlt)]
    rw [Nat.zero_add]
    rfl

/-- C7 amended witness: inserting fresh key `b` with recorded index 5 into a
one-entry bundle appends it at position `min 5 1 = 1`. -/
theorem created_key_insert_position_witness :
    "b".toList ∉ (ArbFile.mk [("x".toList, .str "X".toList)]).keysOf
    ∧ (insertTranslated ⟨[("x".toList, .str "X".toList)]⟩ "b".toList "B".toList
        (some 5)).indexOf "b".toList = some (min 5 1) :=
  ⟨by decide,
    created_key_insert_position ⟨[("x".toList, .str "X".toList)]⟩ "b".toList "B".toList 5
      (by decide)⟩

/-- C10: even on a dry run, every key of the diff's `delete` set is removed
from the output bundle (provided no override re-adds it) and from the target
language's slot of the in-memory cache, and — unless cache mutation is
disabled — the cache file is written at the end of the (successful) run. -/
theorem dry_run_deletes_and_writes_cache (api : List Str → Except Nat (List Str))
    (tpl tgt : ArbFile) (c0 : ArbCache) (opts : TranslationOptions)
    (res : TranslateResult) (k : Str)
    (hdry : opts.dryRun = true)
    (h : (Intl.translate api tpl tgt c0 opts).result = .ok res)
    (hk : k ∈ (diffOf tpl tgt c0 opts).delete)
    (hov : ∀ o, effOverrides opts = some o → k ∉ o.keysOf) :
    k ∉ res.translated.keysOf
    ∧ (((Intl.translate api tpl tgt c0 opts).cache.getFile opts.targetLang).bind
        (fun f => f.lookupV k)) = none
    ∧ (opts.disableCache = false → (Intl.translate api tpl tgt c0 opts).cacheWritten = true) := by
  obtain ⟨h1, h2, h3, h4, h5, h6⟩ := translate_ok_shape api tpl tgt c0 opts res h
  have hstage := stageList_dryRun tpl (diffOf tpl tgt c0 opts) (effOverrides opts) opts hdry
    tpl.entries ⟨[], [], c0⟩
  have hemp : ((stageOf tpl tgt c0 opts).1).translatable = [] := hstage.1
  have hcache : ((stageOf tpl tgt c0 opts).1).cache = c0 := hstage.2
  refine ⟨?_, ?_, ?_⟩
  · rcases h6 with ⟨-, -, htr⟩ | ⟨hne, -⟩
    · rw [htr]
      intro hmem
      rcases (mem_keys_applyOverrides _ _ k).mp hmem with h7 | ⟨o, ho, h8⟩
      · exact not_mem_keys_removeKeys tgt _ k hk h7
      · exact hov o ho h8
    · exact absurd hemp hne
  · rw [h4, hcache, getFile_removeKeysFor]
    cases c0.getFile opts.targetLang with
    | none => rfl
    | some f =>
      simp only [Option.map_some', Option.some_bind]
      exact removeKeys_lookupV_none f _ k hk
  · intro hdis
    rw [h5, hdis]
    rfl

/-- C10 witness: a dry run against a target holding the obsolete key removes
it from the output and from the cache slot, and writes the cache file. -/
theorem dry_run_deletes_and_writes_cache_witness :
    "obsolete".toList ∈ (diffOf (ArbFile.mk []) exTargetObsolete ⟨[]⟩ exDryRunOptions).delete
    ∧ (Intl.translate echoApi (ArbFile.mk []) exTargetObsolete ⟨[]⟩ exDryRunOptions).result =
        .ok ⟨⟨[]⟩, ⟨[]⟩, 0⟩
    ∧ "obsolete".toList ∉ (⟨⟨[]⟩, ⟨[]⟩, 0⟩ : TranslateResult).translated.keysOf
    ∧ (((Intl.translate echoApi (ArbFile.mk []) exTargetObsolete ⟨[]⟩
          exDryRunOptions).cache.getFile "fr".toList).bind
        (fun f => f.lookupV "obsolete".toList)) = none
    ∧ (Intl.translate echoApi (ArbFile.mk []) exTargetObsolete ⟨[]⟩
        exDryRunOptions).cacheWritten = true :=
  ⟨by decide, by decide,
    (dry_run_deletes_and_writes_cache echoApi ⟨[]⟩ exTargetObsolete ⟨[]⟩ exDryRunOptions
      ⟨⟨[]⟩, ⟨[]⟩, 0⟩ "obsolete".toList rfl (by decide) (by decide)
      (fun o ho => nomatch ho)).1,
    (dry_run_deletes_and_writes_cache echoApi ⟨[]⟩ exTargetObsolete ⟨[]⟩ exDryRunOptions
      ⟨⟨[]⟩, ⟨[]⟩, 0⟩ "obsolete".toList rfl (by decide) (by decide)
      (fun o ho => nomatch ho)).2.1,
    (dry_run_deletes_and_writes_cache echoApi ⟨[]⟩ exTargetObsolete ⟨[]⟩ exDryRunOptions
      ⟨⟨[]⟩, ⟨[]⟩, 0⟩ "obsolete".toList rfl (by decide) (by decide)
      (fun o ho => nomatch ho)).2.2 rfl⟩
